import Mathlib

/-!
# Verification of the cell-view candidate-ordering simulation

Shallow embedding of the `emergence/cellview` package:

* `metrics/core.py`  — `sortedness`, `aggregation`, `detect_dg`;
* `heuristics/core.py` — `dirichlet_energy`, `composite_energy`;
* `utils/candidates.py` — `corridor_around_sqrt`, `guard_dense_domain_for_challenge`;
* `engine/engine.py` — `Cell`, `CellViewEngine.energy_of / sweep_indices / step / run`.

Python `float`/`Decimal` values produced by exact arithmetic are modelled as `ℚ`;
the Dirichlet kernel, which calls `math.cos`, is modelled over `ℝ`.
Python's `random.Random` object is modelled as an abstract deterministic state
machine (`RNG σ`): the engine only calls `rng.shuffle`, candidate sampling only
calls `rng.randrange`, and both are deterministic functions of the seed state.
-/

namespace CellView

/-! ## Metrics (`metrics/core.py`) -/

/-- Python `sortedness(values)`: `1 - inversions/(len-1)`; `1.0` for length < 2. -/
def sortedness (values : List Nat) : ℚ :=
  if values.length < 2 then 1
  else 1 - ((values.zip values.tail).countP (fun p => decide (p.2 < p.1)) : ℚ)
    / ((values.length : ℚ) - 1)

/-- Python `aggregation(algotypes)`: fraction of adjacent pairs with equal label; `1.0` for length < 2. -/
def aggregation (algotypes : List String) : ℚ :=
  if algotypes.length < 2 then 1
  else ((algotypes.zip algotypes.tail).countP (fun p => decide (p.1 = p.2)) : ℚ)
    / ((algotypes.length : ℚ) - 1)

/-- The `DGEpisode` record from `metrics/core.py` (`end` is a Lean keyword, rendered `stop`). -/
structure DGEpisode where
  start : Nat
  stop : Nat
  peak : ℚ
  valley : ℚ
  new_peak : ℚ
deriving DecidableEq, Repr

/-- The initial-direction loop of `detect_dg`: first value differing from
`series[0]` by more than `epsilon` fixes the direction (1 up, -1 down); 0 if none. -/
def initDirection (epsilon first : ℚ) : List ℚ → Int
  | [] => 0
  | v :: rest =>
    if epsilon < |v - first| then (if first < v then 1 else -1)
    else initDirection epsilon first rest

/-- The extrema-finding loop of `detect_dg`: walks the enumerated series keeping
the running extreme `(curVal, curIdx)`; a peak (`true`) or valley (`false`) is
emitted when the value retreats by more than `epsilon`. -/
def extremaScan (epsilon : ℚ) : List (Nat × ℚ) → Int → ℚ → Nat →
    List (Bool × ℚ × Nat) → List (Bool × ℚ × Nat)
  | [], _, _, _, acc => acc
  | (i, val) :: rest, direction, curVal, curIdx, acc =>
    if direction = 1 then
      if curVal < val then extremaScan epsilon rest 1 val i acc
      else if val < curVal - epsilon then
        extremaScan epsilon rest (-1) val i (acc ++ [(true, curVal, curIdx)])
      else extremaScan epsilon rest 1 curVal curIdx acc
    else if direction = -1 then
      if val < curVal then extremaScan epsilon rest (-1) val i acc
      else if curVal + epsilon < val then
        extremaScan epsilon rest 1 val i (acc ++ [(false, curVal, curIdx)])
      else extremaScan epsilon rest (-1) curVal curIdx acc
    else extremaScan epsilon rest direction curVal curIdx acc

/-- The P→V→P scan of `detect_dg` over consecutive extrema triples: an episode is
recorded when the second peak strictly exceeds the first and the drop exceeds
the `1e-9` floor; scores `(new_peak-valley)/(peak-valley)` accumulate. -/
def episodeScan : List (Bool × ℚ × Nat) → List DGEpisode × ℚ
  | e1 :: e2 :: e3 :: rest =>
    let r := episodeScan (e2 :: e3 :: rest)
    if e1.1 = true ∧ e2.1 = false ∧ e3.1 = true ∧ e1.2.1 < e3.2.1 ∧
        (1 : ℚ)/1000000000 < e1.2.1 - e2.2.1 then
      (⟨e1.2.2, e3.2.2, e1.2.1, e2.2.1, e3.2.1⟩ :: r.1,
        (e3.2.1 - e2.2.1) / (e1.2.1 - e2.2.1) + r.2)
    else r
  | _ => ([], 0)

/-- Python `detect_dg(series, epsilon, hysteresis)` (the `hysteresis` parameter is unused
in the Python body, and unused here). -/
def detect_dg (series : List ℚ) (epsilon : ℚ) (hysteresis : ℚ) : List DGEpisode × ℚ :=
  if series.length < 3 then ([], 0)
  else
    let first := series.headD 0
    let direction := initDirection epsilon first series
    let extrema := extremaScan epsilon series.enum direction first 0 []
    if extrema.length < 3 then ([], 0)
    else episodeScan extrema

end CellView

namespace CellView

/-! ## Energy heuristics (`heuristics/core.py`) -/

/-- The phase `x = 2*pi*(N mod n)/n` from `dirichlet_energy`. -/
noncomputable def dirichlet_x (n N : ℕ) : ℝ :=
  2 * Real.pi * ((N % n : ℕ) : ℝ) / (n : ℝ)

/-- The kernel sum `s = 1 + sum_{k=1..j} 2*cos(k*x)` from `dirichlet_energy`. -/
noncomputable def dirichlet_s (n N j : ℕ) : ℝ :=
  1 + ∑ k ∈ Finset.Icc 1 j, 2 * Real.cos ((k : ℝ) * dirichlet_x n N)

/-- Python `dirichlet_energy(n, N, params)` with `params = (j, normalize, invert)`:
the sum `s`, divided by `2j+1` when `normalize`, then `val = abs(s)`, then
`1 - val` when `invert`. -/
noncomputable def dirichlet_energy (n N j : ℕ) (normalize invert : Bool) : ℝ :=
  let s := dirichlet_s n N j
  let s1 := if normalize then s / (2 * (j : ℝ) + 1) else s
  let val := |s1|
  if invert then 1 - val else val

/-- Modelled from the claim text (not the source): the value claim C3 asserts
for `dirichlet_energy` with normalization and inversion, namely
`1 - s/(2j+1)` without an absolute value. -/
noncomputable def dirichlet_claimed (n N j : ℕ) : ℝ :=
  1 - dirichlet_s n N j / (2 * (j : ℝ) + 1)

/-- The loop of `composite_energy`: folds over `weights`, resolving each name in
`REGISTRY` (error on a miss), accumulating `total += w * fn(n, N, sub_params[name])`
and `wsum += w`; at the end returns `0` if `wsum = 0` else `total / wsum`.
`REGISTRY` is the module-level registry dict, passed here as a parameter;
`emptyParams` models the `{}` default for a missing `sub_params` entry. -/
def compositeGo {P : Type} (REGISTRY : String → Option (Nat → Nat → P → ℚ))
    (emptyParams : P) (sub_params : String → Option P) (n N : Nat) :
    List (String × ℚ) → ℚ → ℚ → Except String ℚ
  | [], total, wsum => if wsum = 0 then .ok 0 else .ok (total / wsum)
  | (name, w) :: rest, total, wsum =>
    match REGISTRY name with
    | none => .error ("Composite energy references unknown fn " ++ name)
    | some fn =>
      compositeGo REGISTRY emptyParams sub_params n N rest
        (total + w * fn n N ((sub_params name).getD emptyParams)) (wsum + w)

/-- Python `composite_energy(n, N, params)` with `params = (weights, sub_params)`. -/
def composite_energy {P : Type} (REGISTRY : String → Option (Nat → Nat → P → ℚ))
    (emptyParams : P) (weights : List (String × ℚ)) (sub_params : String → Option P)
    (n N : Nat) : Except String ℚ :=
  compositeGo REGISTRY emptyParams sub_params n N weights 0 0

/-- The value contributed by one resolved sub-energy of `composite_energy`
(`fn(n, N, sub_params.get(name, {}))`; `0` is never used under the
all-names-known hypothesis). -/
def subEnergy {P : Type} (REGISTRY : String → Option (Nat → Nat → P → ℚ))
    (emptyParams : P) (sub_params : String → Option P) (n N : Nat)
    (name : String) : ℚ :=
  match REGISTRY name with
  | some fn => fn n N ((sub_params name).getD emptyParams)
  | none => 0

/-- A two-entry registry used by the `composite_energy_spec` witness. -/
def wREG : String → Option (Nat → Nat → Unit → ℚ) :=
  fun s => if s = "residue" then some (fun n _ _ => (n : ℚ)) else none

/-! ## Candidate utilities (`utils/candidates.py`, `utils/challenge.py`) -/

/-- Python's `random.Random` modelled as a deterministic state machine over a
seed-state type `σ`: the engine calls `shuffle` (in-place list shuffle, here
returning the permuted list and the advanced state), candidate sampling calls
`randrange(low, highPlus1)` (a draw in `[low, highPlus1)` and the advanced
state). Both are pure functions of the state, which is what Python's
explicitly seeded Mersenne Twister provides. -/
structure RNG (σ : Type) where
  shuffle : List Nat → σ → List Nat × σ
  randrange : Nat → Nat → σ → Nat × σ

/-- A concrete deterministic `RNG` over a counter state, used by witnesses:
`shuffle` is the identity permutation and `randrange lo hi s` draws
`min (lo + s) (hi - 1)`. -/
def wRNG : RNG Nat :=
  ⟨fun l s => (l, s), fun lo hi s => (min (lo + s) (hi - 1), s + 1)⟩

/-- The bound `low = max(2, center - window)` from `corridor_around_sqrt`. -/
def corridorLow (center window : Nat) : Nat := max 2 (center - window)

/-- The bound `high = center + window` from `corridor_around_sqrt`. -/
def corridorHigh (center window : Nat) : Nat := center + window

/-- The value `span = high - low + 1` from `corridor_around_sqrt` (Python int arithmetic,
so computed in `ℤ`). -/
def corridorSpan (center window : Nat) : Int :=
  (corridorHigh center window : Int) - (corridorLow center window : Int) + 1

/-- Python `list(range(low, high+1))`: the full contiguous clamped corridor. -/
def fullCorridor (center window : Nat) : List Nat :=
  (List.range (corridorHigh center window + 1 - corridorLow center window)).map
    (corridorLow center window + ·)

/-- The rejection-sampling loop of `corridor_around_sqrt`: draw from
`[low, highPlus1)`, retry on duplicate, until `samples` values are collected.
The Python loop is unbounded (it can diverge); `fuel` bounds it here and `none`
models non-termination within the allotted fuel. -/
def sampleLoop {σ : Type} (rng : RNG σ) (low highPlus1 samples : Nat) :
    Nat → σ → List Nat → Option (List Nat × σ)
  | 0, _, _ => none
  | fuel + 1, s, candidates =>
    if samples ≤ candidates.length then some (candidates, s)
    else if (rng.randrange low highPlus1 s).1 ∈ candidates then
      sampleLoop rng low highPlus1 samples fuel (rng.randrange low highPlus1 s).2
        candidates
    else
      sampleLoop rng low highPlus1 samples fuel (rng.randrange low highPlus1 s).2
        (candidates ++ [(rng.randrange low highPlus1 s).1])

/-- Python `corridor_around_sqrt(n, rng, samples, window, center, full)`: the full
clamped corridor when `full` is set or `samples ≥ span`, else rejection
sampling of `samples` distinct values (fuelled; see `sampleLoop`). -/
def corridor_around_sqrt {σ : Type} (n : Nat) (rng : RNG σ) (s0 : σ)
    (samples window : Nat) (centerArg : Option Nat) (full : Bool) (fuel : Nat) :
    Option (List Nat) :=
  let center := centerArg.getD (Nat.sqrt n)
  let low := corridorLow center window
  let high := corridorHigh center window
  let span := corridorSpan center window
  if full ∨ span ≤ (samples : Int) then some (fullCorridor center window)
  else (sampleLoop rng low (high + 1) samples fuel s0 []).map Prod.fst

/-- The constant `N_VALUE` from `utils/challenge.py`: the canonical 127-bit challenge modulus. -/
def N_VALUE : Nat := 137524771864208156028430259349934309717

/-- Python `guard_dense_domain_for_challenge(candidate_count, n)`: raises exactly when
`candidate_count` exceeds `SAFE_COUNT_LIMIT = 50_000_000`; otherwise a no-op
(the computed `isqrt(n)` is unused in the source). -/
def guard_dense_domain_for_challenge (candidate_count : Nat) (n : Nat) :
    Except String Unit :=
  let _sqrt_n := Nat.sqrt n
  let SAFE_COUNT_LIMIT := 50000000
  if SAFE_COUNT_LIMIT < candidate_count then
    .error "Candidate count exceeds safe limit for challenge mode."
  else .ok ()

/-! ## Engine (`engine/engine.py`)

`Decimal` energies are modelled as `ℚ`. The energy-spec mapping together with
the registry fallback is modelled by the resolved total function
`efn : algotype → n → N → ℚ` (i.e. `resolve(algotype).fn(n, N, params)`): the
claims below concern successfully constructed engines, for which every
algotype resolves (the unknown-name failure path is covered by
`composite_energy_spec` / the registry model). -/

/-- The `Cell` dataclass: candidate `n`, `algotype` tag, `frozen` flag, and the
lazily memoized `energy`. -/
structure Cell where
  n : Nat
  algotype : String
  frozen : Bool
  energy : Option ℚ
deriving DecidableEq, Repr

instance : Inhabited Cell := ⟨⟨0, "", false, none⟩⟩

/-- The engine's `energy_cache` dict keyed by `(algotype, n)`, as an
association list (entries are only ever added for absent keys, so the first
match is the binding). -/
abbrev EnergyCache := List ((String × Nat) × ℚ)

/-- Dict lookup in the association-list model of `energy_cache`. -/
def cacheLookup (cache : EnergyCache) (k : String × Nat) : Option ℚ :=
  match cache with
  | [] => none
  | (k', v) :: rest => if k' = k then some v else cacheLookup rest k

/-- Python `CellViewEngine.energy_of(cell)`: return the memoized value if present,
else the cache entry for `(algotype, n)` (memoizing it on the cell), else
compute `spec.fn(cell.n, N, spec.params)` — here `efn cell.algotype cell.n N` —
and store it in both the cache and the cell. Returns the value together with
the updated cell and cache (Python mutates both in place). -/
def energy_of (efn : String → Nat → Nat → ℚ) (N : Nat) (cache : EnergyCache)
    (c : Cell) : ℚ × Cell × EnergyCache :=
  match c.energy with
  | some v => (v, c, cache)
  | none =>
    match cacheLookup cache (c.algotype, c.n) with
    | some v => (v, ⟨c.n, c.algotype, c.frozen, some v⟩, cache)
    | none =>
      (efn c.algotype c.n N, ⟨c.n, c.algotype, c.frozen, some (efn c.algotype c.n N)⟩,
        ((c.algotype, c.n), efn c.algotype c.n N) :: cache)

/-- The constructor arguments of `CellViewEngine` (everything fixed for the
engine's lifetime), with the seeded random source split into the deterministic
machine `rng` and its initial seed state `seed`. -/
structure EngineConfig (σ : Type) where
  N : Nat
  candidates : List Nat
  algotypes : List String
  efn : String → Nat → Nat → ℚ
  rng : RNG σ
  seed : σ
  sweep_order : String
  max_steps : Nat
  type2_immovable : Bool

/-- The engine's mutable state: the cell sequence, the energy cache, and the
current random-source state. -/
structure EngineState (σ : Type) where
  cells : List Cell
  energy_cache : EnergyCache
  rngState : σ

/-- Cell construction in `CellViewEngine.__init__`: one cell per candidate,
algotypes assigned round-robin (`algotypes[idx % len]`), defaulting to
`["dirichlet5"]` when the list is empty; `frozen = False`, `energy = None`. -/
def initCells (candidates : List Nat) (algotypes : List String) : List Cell :=
  let ats := if algotypes = [] then ["dirichlet5"] else algotypes
  candidates.enum.map (fun p => ⟨p.2, ats.getD (p.1 % ats.length) "dirichlet5", false, none⟩)

/-- The starting engine state built by `CellViewEngine.__init__`:
freshly constructed cells, empty energy cache, the seed state. -/
def initState {σ : Type} (cfg : EngineConfig σ) : EngineState σ :=
  ⟨initCells cfg.candidates cfg.algotypes, [], cfg.seed⟩

/-- Python `CellViewEngine.sweep_indices(length)`: the adjacent-pair index list
`range(length - 1)`, shuffled by the engine RNG in `"random"` mode. -/
def sweep_indices {σ : Type} (cfg : EngineConfig σ) (rngState : σ) (length : Nat) :
    List Nat × σ :=
  if cfg.sweep_order = "random" then cfg.rng.shuffle (List.range (length - 1)) rngState
  else (List.range (length - 1), rngState)

/-- One iteration of the sweep loop in `CellViewEngine.step` at pair index `i`
over the accumulator `(swaps, cells, cache)`: skip on the immovability rules,
else compare energies (memoizing them on the cells and cache) and exchange the
two adjacent cells when `e_left > e_right` and the right cell is not frozen. -/
def processPair {σ : Type} (cfg : EngineConfig σ) (acc : Nat × List Cell × EnergyCache)
    (i : Nat) : Nat × List Cell × EnergyCache :=
  match acc.2.1[i]?, acc.2.1[i+1]? with
  | some a, some b =>
    if cfg.type2_immovable ∧ (a.frozen ∨ b.frozen) then acc
    else if a.frozen ∧ b.frozen then acc
    else
      let r1 := energy_of cfg.efn cfg.N acc.2.2 a
      let r2 := energy_of cfg.efn cfg.N r1.2.2 b
      if r2.1 < r1.1 ∧ ¬ b.frozen then
        (acc.1 + 1, (acc.2.1.set i r2.2.1).set (i+1) r1.2.1, r2.2.2)
      else
        (acc.1, (acc.2.1.set i r1.2.1).set (i+1) r2.2.1, r2.2.2)
  | _, _ => acc

/-- Python `CellViewEngine.step()`: one full sweep over `sweep_indices`, returning the
swap count and the updated engine state. -/
def step {σ : Type} (cfg : EngineConfig σ) (st : EngineState σ) : Nat × EngineState σ :=
  let sw := sweep_indices cfg st.rngState st.cells.length
  let r := sw.1.foldl (processPair cfg) (0, st.cells, st.energy_cache)
  (r.1, ⟨r.2.1, r.2.2, sw.2⟩)

/-- The step loop of `CellViewEngine.run()`: up to `fuel` steps, recording per
step the swap count, `sortedness` of the candidate values and `aggregation` of
the algotypes, breaking after the first zero-swap step. -/
def runLoop {σ : Type} (cfg : EngineConfig σ) :
    Nat → EngineState σ → List Nat × List ℚ × List ℚ × EngineState σ
  | 0, st => ([], [], [], st)
  | fuel + 1, st =>
    let r := step cfg st
    let so := sortedness (r.2.cells.map Cell.n)
    let ag := aggregation (r.2.cells.map Cell.algotype)
    if r.1 = 0 then ([r.1], [so], [ag], r.2)
    else
      let rest := runLoop cfg fuel r.2
      (r.1 :: rest.1, so :: rest.2.1, ag :: rest.2.2.1, rest.2.2.2)

/-- The `final_state` comprehension of `run()`: `energy_of` over each cell in
order, threading the cache (Python mutates the cells and cache in place). -/
def finalizeCells {σ : Type} (cfg : EngineConfig σ) :
    List Cell → EnergyCache → List (Cell × ℚ) × EnergyCache
  | [], cache => ([], cache)
  | c :: rest, cache =>
    let r := energy_of cfg.efn cfg.N cache c
    let rec' := finalizeCells cfg rest r.2.2
    ((r.2.1, r.1) :: rec'.1, rec'.2)

/-- One entry of `run()`'s `final_state` list: `{index, n, algotype, energy}`
(the energy string is modelled by the exact value). -/
structure FinalEntry where
  index : Nat
  n : Nat
  algotype : String
  energy : ℚ
deriving DecidableEq, Repr

/-- The result bundle returned by `CellViewEngine.run()`. -/
structure RunResult where
  swaps_per_step : List Nat
  sortedness : List ℚ
  aggregation : List ℚ
  dg_episodes : List DGEpisode
  dg_index : ℚ
  final_state : List FinalEntry
  ranked_candidates : List FinalEntry
deriving Repr

/-- Assembles `run()`'s result from the loop output: DG detection over the
sortedness series (default `epsilon = hysteresis = 1e-3`), the final-state
snapshot, and the energy-ranked ordering (stable sort, ascending energy). -/
def mkRunResult {σ : Type} (cfg : EngineConfig σ)
    (r : List Nat × List ℚ × List ℚ × EngineState σ) : RunResult :=
  let dg := detect_dg r.2.1 (1/1000) (1/1000)
  let fin := finalizeCells cfg r.2.2.2.cells r.2.2.2.energy_cache
  let final_state := fin.1.enum.map (fun p => ⟨p.1, p.2.1.n, p.2.1.algotype, p.2.2⟩)
  ⟨r.1, r.2.1, r.2.2.1, dg.1, dg.2, final_state,
    final_state.mergeSort (fun x y => decide (x.energy ≤ y.energy))⟩

/-- Python `CellViewEngine.run()` for an engine freshly constructed from `cfg`. -/
def runEngine {σ : Type} (cfg : EngineConfig σ) : RunResult :=
  mkRunResult cfg (runLoop cfg cfg.max_steps (initState cfg))

/-! ### Derived notions used by the invariant theorems -/

/-- The position-independent identity of a cell: candidate value, algotype and
frozen flag — everything except the memoized energy. -/
def prCell (c : Cell) : Nat × String × Bool := (c.n, c.algotype, c.frozen)

/-- The energy a cell's `(algotype, n)` pair evaluates to under the engine's
scoring functions (`spec.fn(cell.n, N, spec.params)`). -/
def trueEnergy {σ : Type} (cfg : EngineConfig σ) (c : Cell) : ℚ :=
  cfg.efn c.algotype c.n cfg.N

/-- A cell's memoized energy, when present, is its true energy (§3: the cached
value is position-independent and fixed for the engine's lifetime). -/
def CellOK {σ : Type} (cfg : EngineConfig σ) (c : Cell) : Prop :=
  c.energy = none ∨ c.energy = some (trueEnergy cfg c)

/-- Every `energy_cache` entry agrees with the scoring functions. -/
def CacheOK {σ : Type} (cfg : EngineConfig σ) (cache : EnergyCache) : Prop :=
  ∀ k v, cacheLookup cache k = some v → v = cfg.efn k.1 k.2 cfg.N

/-- The value `energy_of` returns for a cell against a given cache. -/
def energyValue {σ : Type} (cfg : EngineConfig σ) (cache : EnergyCache) (c : Cell) : ℚ :=
  (energy_of cfg.efn cfg.N cache c).1

/-- A concrete deterministic configuration over the counter RNG (candidates
`[3, 2]`, identity-valued energies), used by witnesses. -/
def wCfg : EngineConfig Nat :=
  ⟨35, [3, 2], ["a"], fun _ n _ => (n : ℚ), wRNG, 0, "ascending", 3, false⟩

/-- An already-sorted, unfrozen, unmemoized engine state used by witnesses. -/
def wSt : EngineState Nat :=
  ⟨[⟨2, "a", false, none⟩, ⟨3, "a", false, none⟩], [], 0⟩

end CellView

namespace CellView

/-- C5: with the cell's memoized energy cleared, `energy_of` returns whatever
the cache holds for `(algotype, n)` — for every scoring function `efn`, so the
scoring function is not recomputed: the cache takes precedence. -/
theorem energy_of_cache_precedence (efn : String → Nat → Nat → ℚ) (N : Nat)
    (cache : EnergyCache) (c : Cell) (v : ℚ)
    (hclear : c.energy = none)
    (hcache : cacheLookup cache (c.algotype, c.n) = some v) :
    (energy_of efn N cache c).1 = v := by
  simp only [energy_of, hclear, hcache]

/-- Witness for `energy_of_cache_precedence`: a cleared cell `(dirichlet5, 6)`
with the cache entry overwritten to `7` yields `7` even though the scoring
function would give `99`. -/
theorem energy_of_cache_precedence_witness :
    (⟨6, "dirichlet5", false, none⟩ : Cell).energy = none ∧
    cacheLookup [(("dirichlet5", 6), 7)] ("dirichlet5", 6) = some 7 ∧
    (energy_of (fun _ _ _ => 99) 35 [(("dirichlet5", 6), 7)]
      ⟨6, "dirichlet5", false, none⟩).1 = 7 :=
  ⟨rfl, by simp [cacheLookup],
    energy_of_cache_precedence (fun _ _ _ => 99) 35 [(("dirichlet5", 6), 7)]
      ⟨6, "dirichlet5", false, none⟩ 7 rfl (by simp [cacheLookup])⟩

/-- C1: `run()` is a deterministic function of the configuration
`(N, candidates, algotypes, energy specs, seeded random source, sweep order,
step bound, immovability policy)`: two engines built from equal configurations
produce identical `swaps_per_step`, identical `dg_index`, and identical final
`(n, energy)` sequences. -/
theorem run_deterministic {σ : Type} (cfg1 cfg2 : EngineConfig σ) (h : cfg1 = cfg2) :
    (runEngine cfg1).swaps_per_step = (runEngine cfg2).swaps_per_step ∧
    (runEngine cfg1).dg_index = (runEngine cfg2).dg_index ∧
    (runEngine cfg1).final_state.map (fun e => (e.n, e.energy)) =
      (runEngine cfg2).final_state.map (fun e => (e.n, e.energy)) := by
  subst h
  exact ⟨rfl, rfl, rfl⟩

/-- Witness for `run_deterministic` at the concrete configuration `wCfg`. -/
theorem run_deterministic_witness :
    (runEngine wCfg).swaps_per_step = (runEngine wCfg).swaps_per_step ∧
    (runEngine wCfg).dg_index = (runEngine wCfg).dg_index ∧
    (runEngine wCfg).final_state.map (fun e => (e.n, e.energy)) =
      (runEngine wCfg).final_state.map (fun e => (e.n, e.energy)) :=
  run_deterministic wCfg wCfg rfl

/-- The `getLastD` of a nonempty list does not depend on the default. -/
lemma getLastD_irrel : ∀ (l : List Nat), l ≠ [] → ∀ d d' : Nat, l.getLastD d = l.getLastD d'
  | [], h, _, _ => absurd rfl h
  | _ :: t, _, d, d' => by rw [List.getLastD_cons, List.getLastD_cons]

/-- The step loop executes at most `fuel` steps, records nonzero swap counts at
every position but the last, stops after the first zero, and is nonempty when
`fuel > 0`. -/
lemma runLoop_swaps_spec {σ : Type} (cfg : EngineConfig σ) :
    ∀ (fuel : Nat) (st : EngineState σ),
      (runLoop cfg fuel st).1.length ≤ fuel ∧
      (fuel ≠ 0 → (runLoop cfg fuel st).1 ≠ []) ∧
      (∀ i, i + 1 < (runLoop cfg fuel st).1.length →
        (runLoop cfg fuel st).1.getD i 0 ≠ 0) ∧
      ((runLoop cfg fuel st).1.length < fuel →
        (runLoop cfg fuel st).1.getLastD 1 = 0) := by
  intro fuel
  induction fuel with
  | zero =>
    intro st
    simp [runLoop]
  | succ fuel ih =>
    intro st
    simp only [runLoop]
    by_cases h : (step cfg st).1 = 0
    · simp only [h, if_pos rfl]
      refine ⟨by simp, by simp, ?_, by simp [h]⟩
      intro i hi
      simp at hi
    · rw [if_neg h]
      obtain ⟨ihlen, ihne, ihmid, ihlast⟩ := ih (step cfg st).2
      refine ⟨by simpa using ihlen, by simp, ?_, ?_⟩
      · intro i hi
        cases i with
        | zero => simpa using h
        | succ i =>
          rw [List.getD_cons_succ]
          exact ihmid i (by simpa using hi)
      · intro hlen
        simp only [List.length_cons] at hlen
        have hne := ihne (by omega)
        rw [List.getLastD_cons, getLastD_irrel _ hne _ 1]
        exact ihlast (by omega)

/-- C2: `run()` executes at most `max_steps` steps; every `swaps_per_step`
entry except possibly the last is nonzero (it stops the first time a step
returns zero swaps), and when the list is shorter than `max_steps` its last
entry is zero. -/
theorem run_swaps_termination {σ : Type} (cfg : EngineConfig σ) :
    (runEngine cfg).swaps_per_step.length ≤ cfg.max_steps ∧
    (∀ i, i + 1 < (runEngine cfg).swaps_per_step.length →
      (runEngine cfg).swaps_per_step.getD i 0 ≠ 0) ∧
    ((runEngine cfg).swaps_per_step.length < cfg.max_steps →
      (runEngine cfg).swaps_per_step.getLastD 1 = 0) := by
  obtain ⟨h1, _, h3, h4⟩ := runLoop_swaps_spec cfg cfg.max_steps (initState cfg)
  exact ⟨h1, h3, h4⟩

/-- Witness for `run_swaps_termination`: the engine `wCfg` (candidates
`[3, 2]`, identity-valued energies) makes one swap then stops:
`swaps_per_step = [1, 0]`, of length `2 < max_steps = 3`. -/
theorem run_swaps_termination_witness :
    (0 + 1 < (runEngine wCfg).swaps_per_step.length ∧
      (runEngine wCfg).swaps_per_step.getD 0 0 ≠ 0) ∧
    ((runEngine wCfg).swaps_per_step.length < wCfg.max_steps ∧
      (runEngine wCfg).swaps_per_step.getLastD 1 = 0) := by
  have hstep1 : step wCfg ⟨[⟨3, "a", false, none⟩, ⟨2, "a", false, none⟩], [], 0⟩ =
      (1, ⟨[⟨2, "a", false, some (2:ℚ)⟩, ⟨3, "a", false, some (3:ℚ)⟩],
        [(("a", 2), (2:ℚ)), (("a", 3), (3:ℚ))], 0⟩) := by
    have hlt : (2:ℚ) < 3 := by norm_num
    simp [step, sweep_indices, processPair, energy_of, cacheLookup, wCfg, wRNG, hlt,
      List.range_succ]
  have hstep2 : step wCfg ⟨[⟨2, "a", false, some (2:ℚ)⟩, ⟨3, "a", false, some (3:ℚ)⟩],
        [(("a", 2), (2:ℚ)), (("a", 3), (3:ℚ))], 0⟩ =
      (0, ⟨[⟨2, "a", false, some (2:ℚ)⟩, ⟨3, "a", false, some (3:ℚ)⟩],
        [(("a", 2), (2:ℚ)), (("a", 3), (3:ℚ))], 0⟩) := by
    have hnlt : ¬ (3:ℚ) < 2 := by norm_num
    simp [step, sweep_indices, processPair, energy_of, cacheLookup, wCfg, wRNG, hnlt,
      List.range_succ]
  have hA : (runLoop wCfg 2 ⟨[⟨2, "a", false, some (2:ℚ)⟩, ⟨3, "a", false, some (3:ℚ)⟩],
      [(("a", 2), (2:ℚ)), (("a", 3), (3:ℚ))], 0⟩).1 = [0] := by
    show (runLoop wCfg (1+1) _).1 = [0]
    rw [runLoop, hstep2]
    simp
  have hs : (runEngine wCfg).swaps_per_step = [1, 0] := by
    show (runLoop wCfg (2+1) (initState wCfg)).1 = [1, 0]
    rw [show initState wCfg =
      ⟨[⟨3, "a", false, none⟩, ⟨2, "a", false, none⟩], [], 0⟩ from rfl]
    rw [runLoop, hstep1]
    simp [hA]
  refine ⟨⟨by rw [hs]; norm_num, (run_swaps_termination wCfg).2.1 0 (by rw [hs]; norm_num)⟩,
    ⟨by rw [hs]; norm_num [wCfg], (run_swaps_termination wCfg).2.2 (by rw [hs]; norm_num [wCfg])⟩⟩

/-- Setting an index to the element it already holds is the identity. -/
lemma set_self {α : Type} : ∀ (l : List α) (i : Nat) (a : α),
    l[i]? = some a → l.set i a = l
  | [], _, _, h => by simp at h
  | x :: t, 0, a, h => by
    simp only [List.getElem?_cons_zero, Option.some.injEq] at h
    simp [h]
  | x :: t, i + 1, a, h => by
    simp only [List.getElem?_cons_succ] at h
    simp [set_self t i a h]

/-- Exchanging two adjacent entries via `set` permutes the list. -/
lemma set_swap_perm {α : Type} : ∀ (l : List α) (i : Nat) (a b : α),
    l[i]? = some a → l[i+1]? = some b → ((l.set i b).set (i+1) a).Perm l
  | [], _, _, _, ha, _ => by simp at ha
  | [x], 0, a, b, ha, hb => by simp at hb
  | x :: y :: t, 0, a, b, ha, hb => by
    simp only [List.getElem?_cons_zero, List.getElem?_cons_succ,
      Option.some.injEq] at ha hb
    subst ha
    subst hb
    exact List.Perm.swap x y t
  | x :: t, i + 1, a, b, ha, hb => by
    simp only [List.getElem?_cons_succ] at ha hb
    simpa [List.set] using (set_swap_perm t i a b ha hb).cons x

/-- The function `energy_of` only memoizes: it never changes a cell's identity
(candidate, algotype, frozen flag). -/
lemma energy_of_pr (efn : String → Nat → Nat → ℚ) (N : Nat) (cache : EnergyCache)
    (c : Cell) : prCell (energy_of efn N cache c).2.1 = prCell c := by
  cases hc : c.energy with
  | some v => simp [energy_of, hc]
  | none =>
    cases hl : cacheLookup cache (c.algotype, c.n) with
    | some v => simp [energy_of, hc, hl, prCell]
    | none => simp [energy_of, hc, hl, prCell]

/-- One sweep iteration permutes the cell identities (it exchanges the two
adjacent cells in place or leaves them, up to memoization). -/
lemma processPair_perm {σ : Type} (cfg : EngineConfig σ)
    (acc : Nat × List Cell × EnergyCache) (i : Nat) :
    ((processPair cfg acc i).2.1.map prCell).Perm (acc.2.1.map prCell) := by
  simp only [processPair]
  split
  · split
    · exact .refl _
    · split
      · exact .refl _
      · rename_i a b hA hB h1 h2
        have hA' : (acc.2.1.map prCell)[i]? = some (prCell a) := by
          rw [List.getElem?_map, hA, Option.map_some']
        have hB' : (acc.2.1.map prCell)[i+1]? = some (prCell b) := by
          rw [List.getElem?_map, hB, Option.map_some']
        split
        · simp only [List.map_set, energy_of_pr]
          exact set_swap_perm _ i (prCell a) (prCell b) hA' hB'
        · simp only [List.map_set, energy_of_pr]
          rw [set_self _ i (prCell a) hA']
          rw [set_self _ (i+1) (prCell b) hB']
  · exact .refl _

/-- A whole sweep permutes the cell identities. -/
lemma foldl_processPair_perm {σ : Type} (cfg : EngineConfig σ) :
    ∀ (idxs : List Nat) (acc : Nat × List Cell × EnergyCache),
      ((idxs.foldl (processPair cfg) acc).2.1.map prCell).Perm (acc.2.1.map prCell)
  | [], _ => .refl _
  | i :: rest, acc =>
    (foldl_processPair_perm cfg rest _).trans (processPair_perm cfg acc i)

/-- One `step` permutes the cell identities. -/
lemma step_cells_perm {σ : Type} (cfg : EngineConfig σ) (st : EngineState σ) :
    (((step cfg st).2.cells).map prCell).Perm (st.cells.map prCell) :=
  foldl_processPair_perm cfg _ _

/-- The whole step loop permutes the cell identities. -/
lemma runLoop_cells_perm {σ : Type} (cfg : EngineConfig σ) (fuel : Nat) :
    ∀ (st : EngineState σ),
      (((runLoop cfg fuel st).2.2.2).cells.map prCell).Perm (st.cells.map prCell) := by
  induction fuel with
  | zero => exact fun st => .refl _
  | succ fuel ih =>
    intro st
    simp only [runLoop]
    split
    · exact step_cells_perm cfg st
    · exact (ih _).trans (step_cells_perm cfg st)

/-- The `final_state` pass only memoizes energies: cell identities are kept
pointwise. -/
lemma finalizeCells_map_pr {σ : Type} (cfg : EngineConfig σ) :
    ∀ (cells : List Cell) (cache : EnergyCache),
      ((finalizeCells cfg cells cache).1.map (fun p => prCell p.1)) = cells.map prCell
  | [], _ => rfl
  | c :: rest, cache => by
    simp only [finalizeCells, List.map_cons]
    rw [energy_of_pr, finalizeCells_map_pr cfg rest _]

/-- C10: every `step()` call preserves the multiset of cell identities
(candidate value, algotype, frozen flag) — it only exchanges adjacent cells in
place — and consequently `run()`'s `final_state` lists, as a permutation,
exactly the `(n, algotype)` pairs of the cells built at construction from the
candidate sequence. -/
theorem step_and_run_preserve_cells {σ : Type} (cfg : EngineConfig σ)
    (st : EngineState σ) :
    ((step cfg st).2.cells.map prCell).Perm (st.cells.map prCell) ∧
    ((runEngine cfg).final_state.map (fun e => (e.n, e.algotype))).Perm
      ((initCells cfg.candidates cfg.algotypes).map (fun c => (c.n, c.algotype))) := by
  refine ⟨step_cells_perm cfg st, ?_⟩
  have h1 : (runEngine cfg).final_state =
      (finalizeCells cfg (runLoop cfg cfg.max_steps (initState cfg)).2.2.2.cells
        (runLoop cfg cfg.max_steps (initState cfg)).2.2.2.energy_cache).1.enum.map
        (fun p => ⟨p.1, p.2.1.n, p.2.1.algotype, p.2.2⟩) := rfl
  rw [h1]
  have henum : ∀ (l : List (Cell × ℚ)),
      (l.enum.map (fun p => (⟨p.1, p.2.1.n, p.2.1.algotype, p.2.2⟩ : FinalEntry))).map
        (fun e => (e.n, e.algotype)) = l.map (fun q => (q.1.n, q.1.algotype)) := by
    intro l
    rw [List.map_map]
    rw [show ((fun e : FinalEntry => (e.n, e.algotype)) ∘
        (fun p : Nat × (Cell × ℚ) => (⟨p.1, p.2.1.n, p.2.1.algotype, p.2.2⟩ : FinalEntry))) =
        (fun q : Cell × ℚ => (q.1.n, q.1.algotype)) ∘ Prod.snd from rfl]
    rw [← List.map_map, List.enum_map_snd]
  rw [henum]
  have h2 : ∀ (l : List (Cell × ℚ)), l.map (fun q => (q.1.n, q.1.algotype)) =
      (l.map (fun q => prCell q.1)).map (fun t => (t.1, t.2.1)) := by
    intro l
    rw [List.map_map]
    rfl
  have h3 : ∀ (l : List Cell), l.map (fun c => (c.n, c.algotype)) =
      (l.map prCell).map (fun t => (t.1, t.2.1)) := by
    intro l
    rw [List.map_map]
    rfl
  rw [h2, h3, finalizeCells_map_pr]
  exact (runLoop_cells_perm cfg cfg.max_steps (initState cfg)).map _

/-- Running `energy_of` on a consistent cell and cache returns the cell's true energy
and preserves consistency. -/
lemma energy_of_spec {σ : Type} (cfg : EngineConfig σ) (cache : EnergyCache) (c : Cell)
    (hc : CellOK cfg c) (hk : CacheOK cfg cache) :
    (energy_of cfg.efn cfg.N cache c).1 = trueEnergy cfg c ∧
    CellOK cfg (energy_of cfg.efn cfg.N cache c).2.1 ∧
    CacheOK cfg (energy_of cfg.efn cfg.N cache c).2.2 := by
  cases hce : c.energy with
  | some v =>
    have hv : v = trueEnergy cfg c := by
      rcases hc with h | h
      · rw [hce] at h
        exact absurd h (by simp)
      · rw [hce] at h
        exact Option.some.inj h
    exact ⟨by simp [energy_of, hce, hv], by simp only [energy_of, hce]; exact hc,
      by simp only [energy_of, hce]; exact hk⟩
  | none =>
    cases hcl : cacheLookup cache (c.algotype, c.n) with
    | some v =>
      have hv : v = trueEnergy cfg c := hk (c.algotype, c.n) v hcl
      refine ⟨by simp [energy_of, hce, hcl, hv], ?_, ?_⟩
      · simp only [energy_of, hce, hcl]
        right
        simp [trueEnergy, hv]
      · simp only [energy_of, hce, hcl]
        exact hk
    | none =>
      refine ⟨by simp [energy_of, hce, hcl, trueEnergy], ?_, ?_⟩
      · simp only [energy_of, hce, hcl]
        right
        simp [trueEnergy]
      · simp only [energy_of, hce, hcl]
        intro k v h
        simp only [cacheLookup] at h
        split at h
        · rename_i hkk
          obtain rfl := hkk.symm
          simp only [Option.some.injEq] at h
          rw [← h]
        · exact hk k v h

/-- The true energy only depends on a cell's identity. -/
lemma trueEnergy_congr {σ : Type} (cfg : EngineConfig σ) {a b : Cell}
    (h : prCell a = prCell b) : trueEnergy cfg a = trueEnergy cfg b := by
  have h1 : a.n = b.n := congrArg Prod.fst h
  have h2 : a.algotype = b.algotype := congrArg (fun t => t.2.1) h
  simp [trueEnergy, h1, h2]

/-- Transfer an indexed lookup along an equality of identity maps. -/
lemma getElem?_of_prmap_eq {l l' : List Cell} (h : l'.map prCell = l.map prCell)
    (i : Nat) {a : Cell} (ha : l[i]? = some a) :
    ∃ a', l'[i]? = some a' ∧ prCell a' = prCell a := by
  have hi := congrArg (fun t => t[i]?) h
  simp only [List.getElem?_map, ha, Option.map_some'] at hi
  cases hl : l'[i]? with
  | none =>
    rw [hl] at hi
    simp at hi
  | some a' =>
    rw [hl] at hi
    simp only [Option.map_some', Option.some.injEq] at hi
    exact ⟨a', rfl, hi⟩

/-- Frozen flags are part of the identity map. -/
lemma frozen_of_prmap_eq {l l' : List Cell} (h : l'.map prCell = l.map prCell)
    (hf : ∀ c ∈ l, c.frozen = false) : ∀ c ∈ l', c.frozen = false := by
  intro c hc
  have hmem : prCell c ∈ l.map prCell := h ▸ List.mem_map_of_mem prCell hc
  obtain ⟨d, hd, hpr⟩ := List.mem_map.mp hmem
  have hfr : c.frozen = d.frozen := by
    have := congrArg (fun t => t.2.2) hpr
    simpa using this.symm
  rw [hfr]
  exact hf d hd

/-- The swap counter never decreases across a sweep iteration. -/
lemma processPair_count_le {σ : Type} (cfg : EngineConfig σ)
    (acc : Nat × List Cell × EnergyCache) (i : Nat) :
    acc.1 ≤ (processPair cfg acc i).1 := by
  simp only [processPair]
  split
  · split
    · exact le_refl _
    · split
      · exact le_refl _
      · split
        · simp
        · exact le_refl _
  · exact le_refl _

/-- The swap counter never decreases across a sweep. -/
lemma foldl_count_le {σ : Type} (cfg : EngineConfig σ) :
    ∀ (idxs : List Nat) (acc : Nat × List Cell × EnergyCache),
      acc.1 ≤ (idxs.foldl (processPair cfg) acc).1
  | [], _ => le_refl _
  | i :: rest, acc =>
    (processPair_count_le cfg acc i).trans (foldl_count_le cfg rest _)

/-- A sweep iteration over unfrozen consistent cells that does not swap leaves
the identity map unchanged, preserves consistency, and certifies that the
inspected adjacent pair is energy-ordered. -/
lemma processPair_no_swap {σ : Type} (cfg : EngineConfig σ)
    (acc : Nat × List Cell × EnergyCache) (i : Nat)
    (hcell : ∀ c ∈ acc.2.1, CellOK cfg c) (hcache : CacheOK cfg acc.2.2)
    (hfroz : ∀ c ∈ acc.2.1, c.frozen = false)
    (hcount : (processPair cfg acc i).1 = acc.1) :
    (processPair cfg acc i).2.1.map prCell = acc.2.1.map prCell ∧
    (∀ c ∈ (processPair cfg acc i).2.1, CellOK cfg c) ∧
    CacheOK cfg (processPair cfg acc i).2.2 ∧
    (∀ a b, acc.2.1[i]? = some a → acc.2.1[i+1]? = some b →
      trueEnergy cfg a ≤ trueEnergy cfg b) := by
  revert hcount
  simp only [processPair]
  split
  · rename_i a b hA hB
    have hamem : a ∈ acc.2.1 := List.getElem?_mem hA
    have hbmem : b ∈ acc.2.1 := List.getElem?_mem hB
    have hafr : a.frozen = false := hfroz a hamem
    have hbfr : b.frozen = false := hfroz b hbmem
    have s1 := energy_of_spec cfg acc.2.2 a (hcell a hamem) hcache
    have s2 := energy_of_spec cfg (energy_of cfg.efn cfg.N acc.2.2 a).2.2 b
      (hcell b hbmem) s1.2.2
    split
    · rename_i h1
      rw [hafr, hbfr] at h1
      simp at h1
    · split
      · rename_i h1 h2
        rw [hafr, hbfr] at h2
        simp at h2
      · split
        · rename_i h1 h2 h3
          intro hcount
          omega
        · rename_i h1 h2 h3
          intro hcount
          rw [s1.1, s2.1, hbfr] at h3
          push_neg at h3
          have hord : trueEnergy cfg a ≤ trueEnergy cfg b := by
            by_contra hlt
            push_neg at hlt
            exact absurd (h3 hlt) (by simp)
          have hA' : (acc.2.1.map prCell)[i]? = some (prCell a) := by
            rw [List.getElem?_map, hA, Option.map_some']
          have hB' : (acc.2.1.map prCell)[i+1]? = some (prCell b) := by
            rw [List.getElem?_map, hB, Option.map_some']
          refine ⟨?_, ?_, s2.2.2, ?_⟩
          · simp only [List.map_set, energy_of_pr]
            rw [set_self _ i (prCell a) hA', set_self _ (i+1) (prCell b) hB']
          · intro c hc
            rcases List.mem_or_eq_of_mem_set hc with hc' | rfl
            · rcases List.mem_or_eq_of_mem_set hc' with hc'' | rfl
              · exact hcell c hc''
              · exact s1.2.1
            · exact s2.2.1
          · intro a0 b0 ha0 hb0
            obtain rfl : a0 = a := by
              rw [hA] at ha0
              exact (Option.some.inj ha0).symm
            obtain rfl : b0 = b := by
              rw [hB] at hb0
              exact (Option.some.inj hb0).symm
            exact hord
  · rename_i hno
    intro _
    refine ⟨rfl, hcell, hcache, ?_⟩
    intro a b ha hb
    exact (hno a b ha hb).elim

/-- A zero-swap sweep over unfrozen consistent cells leaves the identity map
unchanged, preserves consistency, and certifies energy-order at every index it
visited. -/
lemma foldl_zero_sorted {σ : Type} (cfg : EngineConfig σ) :
    ∀ (idxs : List Nat) (acc : Nat × List Cell × EnergyCache),
      (∀ c ∈ acc.2.1, CellOK cfg c) → CacheOK cfg acc.2.2 →
      (∀ c ∈ acc.2.1, c.frozen = false) →
      (idxs.foldl (processPair cfg) acc).1 = acc.1 →
      ((idxs.foldl (processPair cfg) acc).2.1.map prCell = acc.2.1.map prCell ∧
       (∀ c ∈ (idxs.foldl (processPair cfg) acc).2.1, CellOK cfg c) ∧
       CacheOK cfg (idxs.foldl (processPair cfg) acc).2.2 ∧
       ∀ i ∈ idxs, ∀ a b, acc.2.1[i]? = some a → acc.2.1[i+1]? = some b →
         trueEnergy cfg a ≤ trueEnergy cfg b) := by
  intro idxs
  induction idxs with
  | nil =>
    intro acc h1 h2 h3 _
    exact ⟨rfl, h1, h2, by simp⟩
  | cons i rest ih =>
    intro acc h1 h2 h3 h4
    simp only [List.foldl_cons] at h4 ⊢
    have hc1 := processPair_count_le cfg acc i
    have hc2 := foldl_count_le cfg rest (processPair cfg acc i)
    have hppc : (processPair cfg acc i).1 = acc.1 := by omega
    obtain ⟨e1, e2, e3, e4⟩ := processPair_no_swap cfg acc i h1 h2 h3 hppc
    have hfroz' := frozen_of_prmap_eq e1 h3
    have hcnt' : (rest.foldl (processPair cfg) (processPair cfg acc i)).1 =
        (processPair cfg acc i).1 := by omega
    obtain ⟨f1, f2, f3, f4⟩ := ih (processPair cfg acc i) e2 e3 hfroz' hcnt'
    refine ⟨f1.trans e1, f2, f3, ?_⟩
    intro j hj a b ha hb
    rcases List.mem_cons.mp hj with rfl | hj
    · exact e4 a b ha hb
    · obtain ⟨a', ha', hpa⟩ := getElem?_of_prmap_eq e1 j ha
      obtain ⟨b', hb', hpb⟩ := getElem?_of_prmap_eq e1 (j+1) hb
      have hord := f4 j hj a' b' ha' hb'
      rw [trueEnergy_congr cfg hpa, trueEnergy_congr cfg hpb] at hord
      exact hord

/-- Every adjacent-pair index is visited by a sweep, in both sweep-order modes
(the shuffled order is a permutation of `range (length - 1)`). -/
lemma mem_sweep_indices {σ : Type} (cfg : EngineConfig σ) (rs : σ) (len i : Nat)
    (hshuf : ∀ (l : List Nat) (s : σ), ((cfg.rng.shuffle l s).1).Perm l)
    (hi : i + 1 < len) : i ∈ (sweep_indices cfg rs len).1 := by
  unfold sweep_indices
  split
  · exact ((hshuf _ _).mem_iff).mpr (List.mem_range.mpr (by omega))
  · exact List.mem_range.mpr (by omega)

/-- C9: for an engine whose cells are all unfrozen (state consistent with the
scoring functions), a `step()` returning zero swaps certifies that the cell
sequence is sorted by energy — every adjacent pair satisfies
`energy_of(cells[i]) ≤ energy_of(cells[i+1])` — in either sweep-order mode. -/
theorem step_fixed_point_sorted {σ : Type} (cfg : EngineConfig σ) (st : EngineState σ)
    (hshuf : ∀ (l : List Nat) (s : σ), ((cfg.rng.shuffle l s).1).Perm l)
    (hcell : ∀ c ∈ st.cells, CellOK cfg c)
    (hcache : CacheOK cfg st.energy_cache)
    (hfroz : ∀ c ∈ st.cells, c.frozen = false)
    (hzero : (step cfg st).1 = 0) :
    ∀ i, i + 1 < (step cfg st).2.cells.length →
      energyValue cfg (step cfg st).2.energy_cache
        ((step cfg st).2.cells.getD i default) ≤
      energyValue cfg (step cfg st).2.energy_cache
        ((step cfg st).2.cells.getD (i+1) default) := by
  intro i hi
  obtain ⟨f1, f2, f3, f4⟩ := foldl_zero_sorted cfg
    (sweep_indices cfg st.rngState st.cells.length).1 (0, st.cells, st.energy_cache)
    hcell hcache hfroz hzero
  have hlen : (step cfg st).2.cells.length = st.cells.length := by
    have := congrArg List.length f1
    simpa using this
  rw [hlen] at hi
  have ha : st.cells[i]? = some st.cells[i] :=
    List.getElem?_eq_getElem (by omega)
  have hb : st.cells[i+1]? = some st.cells[i+1] :=
    List.getElem?_eq_getElem hi
  have hab := f4 i (mem_sweep_indices cfg st.rngState st.cells.length i hshuf hi)
    _ _ ha hb
  obtain ⟨a', ha', hpa⟩ := getElem?_of_prmap_eq f1 i ha
  obtain ⟨b', hb', hpb⟩ := getElem?_of_prmap_eq f1 (i+1) hb
  have hva : energyValue cfg (step cfg st).2.energy_cache
      ((step cfg st).2.cells.getD i default) = trueEnergy cfg st.cells[i] := by
    show (energy_of cfg.efn cfg.N _ _).1 = _
    rw [show (step cfg st).2.cells.getD i default =
        ((step cfg st).2.cells[i]?).getD default from List.getD_eq_getElem?_getD _ _ _]
    rw [show (step cfg st).2.cells[i]? = some a' from ha', Option.getD_some]
    rw [(energy_of_spec cfg (step cfg st).2.energy_cache a'
      (f2 a' (List.getElem?_mem ha')) f3).1]
    exact trueEnergy_congr cfg hpa
  have hvb : energyValue cfg (step cfg st).2.energy_cache
      ((step cfg st).2.cells.getD (i+1) default) = trueEnergy cfg st.cells[i+1] := by
    show (energy_of cfg.efn cfg.N _ _).1 = _
    rw [show (step cfg st).2.cells.getD (i+1) default =
        ((step cfg st).2.cells[i+1]?).getD default from List.getD_eq_getElem?_getD _ _ _]
    rw [show (step cfg st).2.cells[i+1]? = some b' from hb', Option.getD_some]
    rw [(energy_of_spec cfg (step cfg st).2.energy_cache b'
      (f2 b' (List.getElem?_mem hb')) f3).1]
    exact trueEnergy_congr cfg hpb
  rw [hva, hvb]
  exact hab

/-- Witness for `step_fixed_point_sorted`: the already-sorted unfrozen state
`wSt` yields a zero-swap step, and its two cells are energy-ordered. -/
theorem step_fixed_point_sorted_witness :
    energyValue wCfg (step wCfg wSt).2.energy_cache
        ((step wCfg wSt).2.cells.getD 0 default) ≤
      energyValue wCfg (step wCfg wSt).2.energy_cache
        ((step wCfg wSt).2.cells.getD 1 default) := by
  have hnlt : ¬ (3:ℚ) < 2 := by norm_num
  have hzero : (step wCfg wSt).1 = 0 := by
    simp [step, sweep_indices, processPair, energy_of, cacheLookup, wCfg, wRNG, wSt,
      hnlt, List.range_succ]
  have hlen : 0 + 1 < (step wCfg wSt).2.cells.length := by
    simp [step, sweep_indices, processPair, energy_of, cacheLookup, wCfg, wRNG, wSt,
      hnlt, List.range_succ]
  exact step_fixed_point_sorted wCfg wSt (fun l s => List.Perm.refl l)
    (by intro c hc; simp only [wSt] at hc; fin_cases hc <;> exact Or.inl rfl)
    (by intro k v h; simp [cacheLookup] at h)
    (by intro c hc; simp only [wSt] at hc; fin_cases hc <;> rfl)
    hzero 0 hlen

/-- C4: `detect_dg [0, 1, 0.2, 1.5, 0]` with `epsilon = 0.1` yields exactly one
episode, with `peak = 1`, `valley = 0.2`, `new_peak = 1.5` (at indices 1 and 3),
and DG index `(1.5-0.2)/(1.0-0.2) = 1.625 = 13/8`. -/
theorem detect_dg_concrete_case :
    detect_dg [0, 1, 1/5, 3/2, 0] (1/10) (1/1000) =
      ([⟨1, 3, 1, 1/5, 3/2⟩], 13/8) := by
  norm_num [detect_dg, initDirection, extremaScan, episodeScan, List.enum,
    List.enumFrom, one_div]

/-- C6: the materialization guard accepts exactly counts `≤ 50,000,000`:
`100` and `50,000,000` pass, `60,000,000` and `50,000,001` raise, and the guard
is pure (it returns `()` and produces no candidates). -/
theorem guard_dense_domain_boundary :
    (∀ c n, guard_dense_domain_for_challenge c n = .ok () ↔ c ≤ 50000000) ∧
    guard_dense_domain_for_challenge 100 N_VALUE = .ok () ∧
    guard_dense_domain_for_challenge 50000000 N_VALUE = .ok () ∧
    (∃ m, guard_dense_domain_for_challenge 60000000 N_VALUE = .error m) ∧
    (∃ m, guard_dense_domain_for_challenge 50000001 N_VALUE = .error m) := by
  refine ⟨fun c n => ?_, by rfl, by rfl, ⟨_, rfl⟩, ⟨_, rfl⟩⟩
  show (if 50000000 < c then (.error _ : Except String Unit) else .ok ()) = .ok () ↔ _
  split
  · simp only [reduceCtorEq, false_iff]
    omega
  · simp only [true_iff]
    omega

/-- Fact `cos (k*pi) = (-1)^k`, a helper for the Dirichlet counterexample. -/
lemma cos_nat_pi (k : ℕ) : Real.cos ((k : ℝ) * Real.pi) = (-1) ^ k := by
  simpa using Real.cos_nat_mul_pi_sub 0 k

/-- The kernel sum at `n = 2, N = 3, j = 5` is `-1`: the phase is `pi` and
`1 + 2*(cos pi + cos 2pi + cos 3pi + cos 4pi + cos 5pi) = 1 - 2`. -/
lemma dirichlet_s_neg : dirichlet_s 2 3 5 = -1 := by
  have hx : dirichlet_x 2 3 = Real.pi := by
    unfold dirichlet_x
    norm_num
  unfold dirichlet_s
  rw [hx]
  rw [Finset.sum_congr rfl (fun k _ => by rw [cos_nat_pi k])]
  rw [show (Finset.Icc 1 5 : Finset ℕ) = {1, 2, 3, 4, 5} from by decide]
  norm_num [Finset.sum_insert, Finset.mem_insert]

/-- C3 counterexample: at candidate `n = 2`, modulus `N = 3`, order `j = 5`,
the code's normalized+inverted Dirichlet energy is `1 - |-1/11| = 10/11`,
while the claimed formula `1 - s/(2j+1)` gives `1 - (-1/11) = 12/11`. -/
theorem dirichlet_inversion_counterexample :
    dirichlet_energy 2 3 5 true true ≠ dirichlet_claimed 2 3 5 ∧
    dirichlet_energy 2 3 5 true true = 10/11 ∧
    dirichlet_claimed 2 3 5 = 12/11 := by
  have he : dirichlet_energy 2 3 5 true true = 10/11 := by
    unfold dirichlet_energy
    rw [dirichlet_s_neg]
    norm_num [abs_of_pos]
  have hc : dirichlet_claimed 2 3 5 = 12/11 := by
    unfold dirichlet_claimed
    rw [dirichlet_s_neg]
    norm_num
  refine ⟨?_, he, hc⟩
  rw [he, hc]
  norm_num

/-- C3 amended: with normalization and inversion enabled, the Dirichlet energy
equals `1 - |s/(2j+1)| = 1 - |s|/(2j+1)` — the absolute value of the normalized
kernel sum, inverted as one minus that value. -/
theorem dirichlet_energy_norm_invert (n N j : ℕ) (h : 2 ≤ n) :
    dirichlet_energy n N j true true =
      1 - |dirichlet_s n N j| / (2 * (j : ℝ) + 1) := by
  unfold dirichlet_energy
  simp only [if_true]
  rw [abs_div, abs_of_pos (show (0:ℝ) < 2 * (j : ℝ) + 1 by positivity)]

/-- Witness for `dirichlet_energy_norm_invert` at `n = 2, N = 3, j = 5`. -/
theorem dirichlet_energy_norm_invert_witness :
    2 ≤ 2 ∧ dirichlet_energy 2 3 5 true true =
      1 - |dirichlet_s 2 3 5| / (2 * ((5:ℕ) : ℝ) + 1) :=
  ⟨by norm_num, dirichlet_energy_norm_invert 2 3 5 (by norm_num)⟩

/-- Evaluating `compositeGo` with every referenced name known: it accumulates the weighted
sub-energies and weight sum onto the accumulators and applies the final
zero-weight test. -/
lemma compositeGo_known {P : Type} (REGISTRY : String → Option (Nat → Nat → P → ℚ))
    (emptyParams : P) (sub_params : String → Option P) (n N : Nat)
    (weights : List (String × ℚ))
    (hall : ∀ p ∈ weights, (REGISTRY p.1).isSome) (total wsum : ℚ) :
    compositeGo REGISTRY emptyParams sub_params n N weights total wsum =
      if wsum + (weights.map Prod.snd).sum = 0 then .ok 0
      else .ok ((total +
          (weights.map (fun p =>
            p.2 * subEnergy REGISTRY emptyParams sub_params n N p.1)).sum) /
        (wsum + (weights.map Prod.snd).sum)) := by
  induction weights generalizing total wsum with
  | nil => simp [compositeGo]
  | cons head rest ih =>
    obtain ⟨name, w⟩ := head
    obtain ⟨fn, hfn⟩ := Option.isSome_iff_exists.mp (hall ⟨name, w⟩ (by simp))
    have hrest : ∀ p ∈ rest, (REGISTRY p.1).isSome :=
      fun p hp => hall p (List.mem_cons_of_mem _ hp)
    simp only [compositeGo, hfn]
    rw [ih hrest]
    simp only [List.map_cons, List.sum_cons, subEnergy, hfn]
    rw [show wsum + (w + (rest.map Prod.snd).sum) = wsum + w + (rest.map Prod.snd).sum
      from by ring]
    split
    · rfl
    · exact congrArg Except.ok (by ring)

/-- Evaluating `compositeGo` with some referenced name unknown raises at the first miss. -/
lemma compositeGo_unknown {P : Type} (REGISTRY : String → Option (Nat → Nat → P → ℚ))
    (emptyParams : P) (sub_params : String → Option P) (n N : Nat)
    (weights : List (String × ℚ))
    (hbad : ∃ p ∈ weights, REGISTRY p.1 = none) (total wsum : ℚ) :
    ∃ msg, compositeGo REGISTRY emptyParams sub_params n N weights total wsum =
      .error msg := by
  induction weights generalizing total wsum with
  | nil => simp at hbad
  | cons head rest ih =>
    obtain ⟨name, w⟩ := head
    match hreg : REGISTRY name with
    | none =>
      refine ⟨"Composite energy references unknown fn " ++ name, ?_⟩
      simp only [compositeGo, hreg]
    | some fn =>
      obtain ⟨p, hp, hpnone⟩ := hbad
      rcases List.mem_cons.mp hp with heq | hmem
      · rw [heq] at hpnone
        simp only at hpnone
        rw [hreg] at hpnone
        exact absurd hpnone (by simp)
      · simpa only [compositeGo, hreg] using ih ⟨p, hmem, hpnone⟩ _ _

/-- C7: `composite_energy` raises an unknown-function error when any weight name
is missing from the registry; with all names known it returns `0` when the
weights sum to `0`, and otherwise the weighted average of the named
sub-energies evaluated with their parameter sub-maps. -/
theorem composite_energy_spec {P : Type}
    (REGISTRY : String → Option (Nat → Nat → P → ℚ)) (emptyParams : P)
    (weights : List (String × ℚ)) (sub_params : String → Option P) (n N : Nat) :
    ((∃ p ∈ weights, REGISTRY p.1 = none) →
      ∃ msg, composite_energy REGISTRY emptyParams weights sub_params n N =
        .error msg) ∧
    ((∀ p ∈ weights, (REGISTRY p.1).isSome) →
      ((weights.map Prod.snd).sum = 0 →
        composite_energy REGISTRY emptyParams weights sub_params n N = .ok 0) ∧
      ((weights.map Prod.snd).sum ≠ 0 →
        composite_energy REGISTRY emptyParams weights sub_params n N =
          .ok ((weights.map (fun p =>
              p.2 * subEnergy REGISTRY emptyParams sub_params n N p.1)).sum /
            (weights.map Prod.snd).sum))) := by
  constructor
  · intro hbad
    exact compositeGo_unknown REGISTRY emptyParams sub_params n N weights hbad 0 0
  · intro hall
    constructor
    · intro hz
      unfold composite_energy
      rw [compositeGo_known REGISTRY emptyParams sub_params n N weights hall 0 0]
      simp [hz]
    · intro hnz
      unfold composite_energy
      rw [compositeGo_known REGISTRY emptyParams sub_params n N weights hall 0 0]
      simp [hnz]

/-- Invariant of the rejection-sampling loop: starting from an accumulator that
is short enough, duplicate-free and in range, a successful run returns exactly
`samples` duplicate-free in-range values. -/
lemma sampleLoop_spec {σ : Type} (rng : RNG σ) (low highPlus1 samples : Nat)
    (hr : ∀ lo hi s, lo < hi →
      lo ≤ (rng.randrange lo hi s).1 ∧ (rng.randrange lo hi s).1 < hi)
    (hlt : low < highPlus1) :
    ∀ (fuel : Nat) (s : σ) (acc res : List Nat) (s' : σ),
      acc.length ≤ samples → acc.Nodup → (∀ v ∈ acc, low ≤ v ∧ v < highPlus1) →
      sampleLoop rng low highPlus1 samples fuel s acc = some (res, s') →
      res.length = samples ∧ res.Nodup ∧ ∀ v ∈ res, low ≤ v ∧ v < highPlus1 := by
  intro fuel
  induction fuel with
  | zero =>
    intro s acc res s' _ _ _ h
    simp [sampleLoop] at h
  | succ fuel ih =>
    intro s acc res s' hlen hnd hmem h
    rw [sampleLoop] at h
    split at h
    · rename_i hge
      simp only [Option.some.injEq, Prod.mk.injEq] at h
      obtain ⟨rfl, rfl⟩ := h
      exact ⟨le_antisymm hlen hge, hnd, hmem⟩
    · rename_i hshort
      split at h
      · exact ih _ acc res s' hlen hnd hmem h
      · rename_i hnotmem
        have hdraw := hr low highPlus1 s hlt
        refine ih _ (acc ++ [(rng.randrange low highPlus1 s).1]) res s' ?_ ?_ ?_ h
        · simp only [List.length_append, List.length_singleton]
          omega
        · simp [List.nodup_append, hnd, hnotmem]
        · intro v hv
          rcases List.mem_append.mp hv with hv | hv
          · exact hmem v hv
          · rw [List.mem_singleton.mp hv]
            exact hdraw

/-- C8: with `full` unset and `0 < samples < span`, a `corridor_around_sqrt`
call that returns yields exactly `samples` pairwise-distinct integers inside
`[center - window, center + window]`; with `full` set or `samples ≥ span`, the
full contiguous clamped corridor is returned. The hypothesis on `randrange` is
the Python `random.Random.randrange(low, high)` contract. -/
theorem corridor_sampling {σ : Type} (n : Nat) (rng : RNG σ) (s0 : σ)
    (samples window : Nat) (centerArg : Option Nat) (fuel : Nat)
    (hr : ∀ lo hi s, lo < hi →
      lo ≤ (rng.randrange lo hi s).1 ∧ (rng.randrange lo hi s).1 < hi) :
    (∀ res, 0 < samples →
      (samples : Int) < corridorSpan (centerArg.getD (Nat.sqrt n)) window →
      corridor_around_sqrt n rng s0 samples window centerArg false fuel = some res →
      res.length = samples ∧ res.Nodup ∧ ∀ v ∈ res,
        (centerArg.getD (Nat.sqrt n) : Int) - (window : Int) ≤ (v : Int) ∧
        (v : Int) ≤ (centerArg.getD (Nat.sqrt n) : Int) + (window : Int)) ∧
    (∀ full : Bool,
      (full = true ∨ corridorSpan (centerArg.getD (Nat.sqrt n)) window ≤ (samples : Int)) →
      corridor_around_sqrt n rng s0 samples window centerArg full fuel =
        some (fullCorridor (centerArg.getD (Nat.sqrt n)) window)) := by
  constructor
  · intro res hpos hspan hcall
    set center := centerArg.getD (Nat.sqrt n) with hcenter
    have hLH : corridorLow center window < corridorHigh center window + 1 := by
      have := hspan
      unfold corridorSpan at this
      omega
    rw [corridor_around_sqrt] at hcall
    rw [if_neg (by push_neg; exact ⟨by simp, by rw [← hcenter]; omega⟩)] at hcall
    rw [← hcenter] at hcall
    obtain ⟨⟨res', sfin⟩, hloop, hfst⟩ := Option.map_eq_some'.mp hcall
    rw [show res' = res from hfst] at hloop
    have hspec := sampleLoop_spec rng (corridorLow center window)
      (corridorHigh center window + 1) samples hr hLH fuel s0 [] res sfin
      (by simp) (by simp) (by simp) hloop
    refine ⟨hspec.1, hspec.2.1, fun v hv => ?_⟩
    have hb := hspec.2.2 v hv
    have h1 : corridorLow center window = max 2 (center - window) := rfl
    have h2 : corridorHigh center window = center + window := rfl
    omega
  · intro full hfull
    rw [corridor_around_sqrt]
    rw [if_pos]
    rcases hfull with h | h
    · exact Or.inl (by simp [h])
    · exact Or.inr h

/-- Witness for `corridor_sampling`: with `center = 10`, `window = 2`
(corridor `[8, 12]`, span 5) and `samples = 2`, sampling returns `[8, 9]`;
with `full` set the call returns the full corridor. -/
theorem corridor_sampling_witness :
    (([8, 9] : List Nat).length = 2 ∧ ([8, 9] : List Nat).Nodup ∧
      ∀ v ∈ ([8, 9] : List Nat),
        ((some 10).getD (Nat.sqrt 0) : Int) - (2 : Int) ≤ (v : Int) ∧
        (v : Int) ≤ ((some 10).getD (Nat.sqrt 0) : Int) + (2 : Int)) ∧
    corridor_around_sqrt 0 wRNG 0 2 2 (some 10) true 0 =
      some (fullCorridor ((some 10).getD (Nat.sqrt 0)) 2) := by
  have hr : ∀ lo hi s, lo < hi →
      lo ≤ (wRNG.randrange lo hi s).1 ∧ (wRNG.randrange lo hi s).1 < hi := by
    intro lo hi s h
    unfold wRNG
    constructor <;> simp <;> omega
  exact ⟨(corridor_sampling 0 wRNG 0 2 2 (some 10) 5 hr).1 [8, 9]
      (by norm_num) (by decide) (by decide),
    (corridor_sampling 0 wRNG 0 2 2 (some 10) 0 hr).2 true (Or.inl rfl)⟩

/-- Witness for `composite_energy_spec`: an unknown name errors; zero weights
give `0`; weights `[("residue", 2)]` at `n = 6` give `(2*6)/2`. -/
theorem composite_energy_spec_witness :
    (∃ msg, composite_energy wREG () [("nope", 1)] (fun _ => none) 6 35 =
      .error msg) ∧
    composite_energy wREG () [("residue", 2), ("residue", -2)] (fun _ => none) 6 35 =
      .ok 0 ∧
    composite_energy wREG () [("residue", 2)] (fun _ => none) 6 35 =
      .ok (([(("residue" : String), (2 : ℚ))].map (fun p =>
          p.2 * subEnergy wREG () (fun _ => none) 6 35 p.1)).sum /
        ([(("residue" : String), (2 : ℚ))].map Prod.snd).sum) := by
  have hall2 : ∀ p ∈ ([("residue", (2:ℚ)), ("residue", -2)] : List (String × ℚ)),
      (wREG p.1).isSome := by
    intro p hp
    fin_cases hp <;> simp [wREG]
  have hall1 : ∀ p ∈ ([("residue", (2:ℚ))] : List (String × ℚ)),
      (wREG p.1).isSome := by
    intro p hp
    fin_cases hp
    simp [wREG]
  exact ⟨(composite_energy_spec wREG () [("nope", 1)] (fun _ => none) 6 35).1
      ⟨("nope", 1), by simp, by simp [wREG]⟩,
    ((composite_energy_spec wREG () [("residue", 2), ("residue", -2)]
        (fun _ => none) 6 35).2 hall2).1 (by simp),
    ((composite_energy_spec wREG () [("residue", 2)] (fun _ => none) 6 35).2 hall1).2
      (by simp)⟩

end CellView
